import Mathlib

/-!
Verification of the freshness/staleness decision engine and producer-wrapping
layer of a generalized content cache, via a shallow embedding.

Conventions of the embedding:
* Wall-clock instants (`date` fields, the various `now`/`at` arguments) are
  rationals measured in milliseconds since an arbitrary epoch, mirroring
  JavaScript `Date.valueOf()`.  Durations (ages, directives) are rationals
  measured in seconds.
* The JavaScript number `Infinity` appears in the source only as a neutral
  element for `Math.min`-style comparisons; those spots are embedded either in
  `WithTop Rat` (where an infinite value can escape, as in `calculateStoreFor`)
  or by the corresponding `Option` case split (where it cannot).
* Opaque payloads (params, producer content, validator keys, error values) are
  embedded as `Nat` or lists thereof; none of the verified code inspects them.
* Effectful collaborators (the backing store, the producer, the param/vary
  normalizers, the wall clock) are passed as explicit function arguments.
-/

namespace CacheSpec

/-- A producer's raw `maxStale` directive object. -/
structure ProducerMaxStale where
  withoutRevalidation : ℚ
  whileRevalidate : ℚ
  ifError : ℚ
deriving DecidableEq, Repr

/-- A producer's `maxStale` after `normalizeProducerMaxStale`. -/
structure NormalizedProducerMaxStale where
  withoutRevalidation : ℚ
  whileRevalidate : ℚ
  ifError : ℚ
deriving DecidableEq, Repr

/-- A consumer's raw `maxStale` directive object (its optional
`freshUntilAge` lets the consumer tighten the effective freshness lifetime). -/
structure ConsumerMaxStale where
  freshUntilAge : Option ℚ
  withoutRevalidation : ℚ
  whileRevalidate : ℚ
  ifError : ℚ
deriving DecidableEq, Repr

/-- A consumer's `maxStale` after `normalizeConsumerMaxStale`. -/
structure NormalizedConsumerMaxStale where
  freshUntilAge : Option ℚ
  withoutRevalidation : ℚ
  whileRevalidate : ℚ
  ifError : ℚ
deriving DecidableEq, Repr

/-- The consumer's directives accompanying a request. -/
structure ConsumerDirectives where
  maxAge : Option ℚ
  maxStale : Option ConsumerMaxStale
deriving DecidableEq, Repr

/-- A producer's raw directives. -/
structure ProducerDirectives where
  freshUntilAge : ℚ
  maxStale : Option ProducerMaxStale
  storeFor : Option ℚ
deriving DecidableEq, Repr

/-- Producer directives after `normalizeProducerDirectives`. -/
structure NormalizedProducerDirectives where
  freshUntilAge : ℚ
  maxStale : Option NormalizedProducerMaxStale
  storeFor : Option ℚ
deriving DecidableEq, Repr

/-- A raw `ProducerResultResource`: what a producer hands back for one
resource, before normalization.  `vary` values of `none` model the explicit
`null` marker ("the producer relied on the param being missing"). -/
structure ProducerResultResource where
  id : Nat
  content : Nat
  vary : Option (List (Nat × Option Nat))
  initialAge : Option ℚ
  date : Option ℚ
  directives : ProducerDirectives
  validators : Option (List Nat)
deriving DecidableEq, Repr

/-- A normalized entry (`NormalizedProducerResultResource`), the unit stored in
and returned from the cache.  `validators` is the list of validator keys; the
source only ever asks whether the validators object is empty. -/
structure Entry where
  id : Nat
  content : Nat
  vary : List (Nat × Option Nat)
  initialAge : ℚ
  date : ℚ
  directives : NormalizedProducerDirectives
  validators : List Nat
deriving DecidableEq, Repr

/-- `normalizeProducerMaxStale`: clamp to non-negative and enforce the
monotone chain `withoutRevalidation <= whileRevalidate <= ifError`. -/
def normalizeProducerMaxStale (maxStale : ProducerMaxStale) :
    NormalizedProducerMaxStale :=
  let withoutRevalidation := max 0 maxStale.withoutRevalidation
  let whileRevalidate := max withoutRevalidation maxStale.whileRevalidate
  let ifError := max whileRevalidate maxStale.ifError
  ⟨withoutRevalidation, whileRevalidate, ifError⟩

/-- `normalizeConsumerMaxStale`: same clamping; `freshUntilAge` is clamped to
non-negative when present. -/
def normalizeConsumerMaxStale (maxStale : ConsumerMaxStale) :
    NormalizedConsumerMaxStale :=
  let withoutRevalidation := max 0 maxStale.withoutRevalidation
  let whileRevalidate := max withoutRevalidation maxStale.whileRevalidate
  let ifError := max whileRevalidate maxStale.ifError
  ⟨maxStale.freshUntilAge.map (fun f => max 0 f),
    withoutRevalidation, whileRevalidate, ifError⟩

/-- `normalizeProducerDirectives`: clamp `freshUntilAge` to non-negative and
normalize `maxStale` when present; `storeFor` passes through. -/
def normalizeProducerDirectives (directives : ProducerDirectives) :
    NormalizedProducerDirectives :=
  ⟨max directives.freshUntilAge 0,
    directives.maxStale.map normalizeProducerMaxStale,
    directives.storeFor⟩

/-- `normalizeProducerResultResource`: fill defaults
(`initialAge = max(raw ?? 0, 0)`, `vary = normalize(raw ?? empty)`,
`validators = raw ?? empty`, `date = raw ?? fallbackProducedAt`) and
normalize the directives.  The caller always supplies a fallback date (the
source falls back to `new Date()`), so it is a required argument here. -/
def normalizeProducerResultResource
    (normVary : List (Nat × Option Nat) → List (Nat × Option Nat))
    (resourceResult : ProducerResultResource) (fallbackProducedAt : ℚ) :
    Entry :=
  { id := resourceResult.id
    content := resourceResult.content
    vary := normVary (resourceResult.vary.getD [])
    initialAge := max (resourceResult.initialAge.getD 0) 0
    date := resourceResult.date.getD fallbackProducedAt
    directives := normalizeProducerDirectives resourceResult.directives
    validators := resourceResult.validators.getD [] }

/-- `birthDate`: the instant (ms) when the origin generated the content. -/
def birthDate (it : Entry) : ℚ :=
  it.date - it.initialAge * 1000

/-- `age`: seconds between the origin generating the content and `at`. -/
def age (it : Entry) (at' : ℚ) : ℚ :=
  (at' - birthDate it) / 1000

/-- `isValidatable`: whether the entry has data usable for revalidation. -/
def isValidatable (it : Entry) : Bool :=
  decide (0 < it.validators.length)

/-- `isFresh`: the age at `at` is between 0 and the producer's
`freshUntilAge`. -/
def isFresh (it : Entry) (at' : ℚ) : Bool :=
  decide (0 ≤ age it at') && decide (age it at' ≤ it.directives.freshUntilAge)

/-- `potentiallyUsefulFor`: seconds until the entry could not even potentially
satisfy a request; infinite unless the producer capped staleness via
`maxStale` and the entry carries no validators. -/
def potentiallyUsefulFor (it : Entry) (at' : ℚ) : WithTop ℚ :=
  match it.directives.maxStale, isValidatable it with
  | some ms, false =>
      ((it.directives.freshUntilAge + ms.ifError - age it at' : ℚ) : WithTop ℚ)
  | _, _ => ⊤

/-- The four usability categories of `classify`. -/
inductive EntryClassification where
  | Usable
  | UsableWhileRevalidate
  | UsableIfError
  | Unusable
deriving DecidableEq, Repr

/-- The per-field staleness bounds assembled inside `classify`; `⊤` plays the
role of the source's `Infinity`. -/
structure MaxStaleBounds where
  withoutRevalidation : WithTop ℚ
  whileRevalidate : WithTop ℚ
  ifError : WithTop ℚ
deriving DecidableEq, Repr

/-- `classify`: the usability of `entry` for a consumer with directives
`consumerDirs` at instant `at`.  Follows the source step by step: hard `maxAge`
ceiling first; then the effective freshness lifetime (the consumer's optional
`maxStale.freshUntilAge`, `Math.min`-ed with the producer's, the absent case
being `Infinity`); fresh entries are usable; staleness is then classified by
per-field minimums of the two parties' `maxStale` directives with the
defaulting of the source.  -/
def classify (entry : Entry) (consumerDirs : ConsumerDirectives) (at' : ℚ) :
    EntryClassification :=
  let producerDirs := entry.directives
  let ageAtDate := age entry at'
  if consumerDirs.maxAge.elim false (fun m => decide (ageAtDate > m)) then
    .Unusable
  else
    let givenConsumerMaxStaleNormalized :=
      consumerDirs.maxStale.map normalizeConsumerMaxStale
    let effectiveFreshUntilAge : ℚ :=
      match givenConsumerMaxStaleNormalized.bind (fun m => m.freshUntilAge) with
      | none => producerDirs.freshUntilAge
      | some f => min f producerDirs.freshUntilAge
    if ageAtDate ≤ effectiveFreshUntilAge then
      .Usable
    else if producerDirs.maxStale.isNone &&
        givenConsumerMaxStaleNormalized.isNone then
      .Unusable
    else
      let finalProducerMaxStale : MaxStaleBounds :=
        match producerDirs.maxStale with
        | some m =>
            ⟨(m.withoutRevalidation : ℚ), (m.whileRevalidate : ℚ),
              (m.ifError : ℚ)⟩
        | none => ⟨⊤, ⊤, ⊤⟩
      let finalConsumerMaxStale : MaxStaleBounds :=
        match givenConsumerMaxStaleNormalized with
        | some m =>
            ⟨(m.withoutRevalidation : ℚ), (m.whileRevalidate : ℚ),
              (m.ifError : ℚ)⟩
        | none =>
            match producerDirs.maxStale with
            | none => ⟨(0 : ℚ), (0 : ℚ), (0 : ℚ)⟩
            | some m => ⟨(0 : ℚ), (m.whileRevalidate : ℚ), (m.ifError : ℚ)⟩
      let staleness := ageAtDate - effectiveFreshUntilAge
      if (staleness : WithTop ℚ) ≤
          min finalConsumerMaxStale.withoutRevalidation
            finalProducerMaxStale.withoutRevalidation then
        .Usable
      else if (staleness : WithTop ℚ) ≤
          min finalConsumerMaxStale.whileRevalidate
            finalProducerMaxStale.whileRevalidate then
        .UsableWhileRevalidate
      else if (staleness : WithTop ℚ) ≤
          min finalConsumerMaxStale.ifError finalProducerMaxStale.ifError then
        .UsableIfError
      else
        .Unusable

/-- The object returned by a cache lookup (`CacheLookupResult`). -/
structure CacheLookupResult where
  usable : Option Entry
  usableWhileRevalidate : Option Entry
  usableIfError : Option Entry
  validatable : List Entry
deriving DecidableEq, Repr

/-- The empty lookup result (`{validatable: []}` in the source). -/
def emptyLookupResult : CacheLookupResult :=
  ⟨none, none, none, []⟩

/-- The ordering used by `Cache.bestEntry`: ascending `birthDate`. -/
def birthLE (a b : Entry) : Prop :=
  birthDate a ≤ birthDate b

instance : DecidableRel birthLE := fun a b =>
  inferInstanceAs (Decidable (birthDate a ≤ birthDate b))

instance : IsTotal Entry birthLE :=
  ⟨fun a b => le_total (birthDate a) (birthDate b)⟩

instance : IsTrans Entry birthLE :=
  ⟨fun _ _ _ h1 h2 => le_trans h1 h2⟩

/-- `Cache.bestEntry`: stable-sort the suitable entries by `birthDate`
ascending (the source uses a stable `sortBy`) and take the last one. -/
def bestEntry (suitableEntries : List Entry) : Option Entry :=
  (List.insertionSort birthLE suitableEntries).getLast?

/-- `Cache.#processCacheEntries`: group the entries by classification (the
source's `groupBy`; a group "exists" exactly when some entry falls in it, and
groups preserve input order) and assemble the lookup result. -/
def processCacheEntries (entries : List Entry)
    (directives : ConsumerDirectives) (now : ℚ) : CacheLookupResult :=
  let usableEntries :=
    entries.filter (fun it =>
      decide (classify it directives now = .Usable))
  if usableEntries.isEmpty then
    let validatableEntries := entries.filter isValidatable
    let usableWhileRevalidateEntries :=
      entries.filter (fun it =>
        decide (classify it directives now = .UsableWhileRevalidate))
    if usableWhileRevalidateEntries.isEmpty then
      let usableIfErrorEntries :=
        entries.filter (fun it =>
          decide (classify it directives now = .UsableIfError))
      { usable := none
        usableWhileRevalidate := none
        usableIfError :=
          if usableIfErrorEntries.isEmpty then none
          else bestEntry usableIfErrorEntries
        validatable := validatableEntries }
    else
      { usable := none
        usableWhileRevalidate := bestEntry usableWhileRevalidateEntries
        usableIfError := none
        validatable := validatableEntries }
  else
    { usable := bestEntry usableEntries
      usableWhileRevalidate := none
      usableIfError := none
      validatable := [] }

/-- `calculateStoreFor`: the maximum number of seconds the backing store may
hold `entry` when stored at `at`; `⊤` is the source's `Infinity`. -/
def calculateStoreFor (entry : Entry) (at' : ℚ) : WithTop ℚ :=
  let requestedStoreFor : WithTop ℚ :=
    match entry.directives.storeFor with
    | some producerStoreFor =>
        ((producerStoreFor - entry.initialAge : ℚ) : WithTop ℚ)
    | none => ⊤
  max 0 (min requestedStoreFor (potentiallyUsefulFor entry at'))

/-- Policy for cache operations arriving after `close()`. -/
inductive OnRequestAfterClose where
  | throwPolicy
  | returnNothing
deriving DecidableEq, Repr

/-- The errors the modelled cache operations can raise. -/
inductive CacheErr where
  | closedErr
deriving DecidableEq, Repr

/-- The cache configuration/state relevant to `get`/`getMany`. -/
structure CacheState where
  closed : Bool
  onGetAfterClose : OnRequestAfterClose
deriving DecidableEq, Repr

/-- A consumer request; `params` is opaque to everything verified here. -/
structure ConsumerRequest where
  id : Nat
  params : Nat
  directives : ConsumerDirectives
deriving DecidableEq, Repr

/-- `Cache.get`: after the closed check, normalize the params, fetch the
candidate entries from the store and process them at the captured `now`.
The backing store's `get` is the function argument `storeGet`. -/
def cacheGet (st : CacheState) (storeGet : Nat → Nat → List Entry)
    (normalizeParams : Nat → Nat) (req : ConsumerRequest) (now : ℚ) :
    Except CacheErr CacheLookupResult :=
  if st.closed then
    match st.onGetAfterClose with
    | .throwPolicy => .error .closedErr
    | .returnNothing => .ok emptyLookupResult
  else
    .ok (processCacheEntries (storeGet req.id (normalizeParams req.params))
      req.directives now)

/-- `Cache.getMany`: the empty-request short-circuit comes first (before even
the closed check); otherwise the store's `getMany` (the function argument
`storeGetMany`) is called once with the normalized requests and each request
is processed against its row of the result, all at a single `now`.  The
out-of-bounds default `[]` models the source's unchecked `entries[i]!`
indexing, which the store contract makes unreachable. -/
def cacheGetMany (st : CacheState)
    (storeGetMany : List (Nat × Nat) → List (List Entry))
    (normalizeParams : Nat → Nat) (requests : List ConsumerRequest) (now : ℚ) :
    Except CacheErr (List CacheLookupResult) :=
  if requests.isEmpty then
    .ok []
  else if st.closed then
    match st.onGetAfterClose with
    | .throwPolicy => .error .closedErr
    | .returnNothing => .ok (requests.map (fun _ => emptyLookupResult))
  else
    let cacheEntriesForRequests :=
      storeGetMany (requests.map (fun req =>
        (req.id, normalizeParams req.params)))
    .ok (requests.enum.map (fun p =>
      processCacheEntries (cacheEntriesForRequests.getD p.1 [])
        p.2.directives now))

/-- `Cache.store`'s per-entry computation: normalize each raw resource (with
`now` as the fallback produced-at date) and pair it with its
`maxStoreForSeconds`; this list is both what the `"store"` event reports and
what is handed to the backing store. -/
def cacheStoreEntriesWithTimes
    (normVary : List (Nat × Option Nat) → List (Nat × Option Nat))
    (data : List ProducerResultResource) (now : ℚ) :
    List (Entry × WithTop ℚ) :=
  data.map (fun it =>
    let entry := normalizeProducerResultResource normVary it now
    (entry, calculateStoreFor entry now))

/-- Opaque producer error values. -/
abbrev ProducerErr := Nat

/-- Opaque request-paired producer result values (the primary resource data a
producer returns for one request, before normalization). -/
abbrev RawProducerResult := Nat

/-- The collaborators of the wrappers, abstracted as functions: the
cacheability predicate, the per-request cache lookup, the per-request
producer outcome, and the normalization of a producer result into the primary
`Entry` (the source's
`primaryNormalizedResultResourceFromRequestPairedProducerResult`, which also
receives the request for its `id`). -/
structure WrapCtx where
  isCacheable : ConsumerRequest → Bool
  lookup : ConsumerRequest → CacheLookupResult
  produce : ConsumerRequest → Except ProducerErr RawProducerResult
  normRes : ConsumerRequest → RawProducerResult → Entry

/-- The value the bulk wrapper places in the output array for a
needs-producer request: `producerResult instanceof Error ?
(cacheResult.usableIfError ?? producerResult) : normalize(producerResult)`. -/
def bulkNeedsProducerOutcome (cacheResult : CacheLookupResult)
    (req : ConsumerRequest)
    (normRes : ConsumerRequest → RawProducerResult → Entry)
    (producerResult : Except ProducerErr RawProducerResult) :
    Except ProducerErr Entry :=
  match producerResult with
  | .error e =>
      match cacheResult.usableIfError with
      | some u => .ok u
      | none => .error e
  | .ok r => .ok (normRes req r)

/-- The decision flow of `wrapProducer`'s `wrappedProducer` from the point
where the cache lookup result is in hand (source lines 298-372), with the
producer call's eventual outcome passed in: a `usable` entry is returned
directly; a `usableWhileRevalidate` entry is returned while the refresh runs
detached; otherwise the producer outcome is awaited, falling back to the
`usableIfError` entry exactly on producer failure. -/
def wrappedProducerDecision (cacheRes : CacheLookupResult)
    (req : ConsumerRequest)
    (normRes : ConsumerRequest → RawProducerResult → Entry)
    (producerOutcome : Except ProducerErr RawProducerResult) :
    Except ProducerErr Entry :=
  match cacheRes.usable with
  | some usable => .ok usable
  | none =>
    let newContent := producerOutcome.map (normRes req)
    match cacheRes.usableWhileRevalidate with
    | some usableWhileRevalidate => .ok usableWhileRevalidate
    | none =>
      match cacheRes.usableIfError with
      | some usableIfError =>
          match newContent with
          | .ok fresh => .ok fresh
          | .error _ => .ok usableIfError
      | none => newContent

/-- `wrapBulkProducer`'s `wrappedBulkProducer`, as a pure function over the
request list.  Requests are tagged with their original index (standing for
the source's identity map `finalRequestsToOriginalIndices`, which is keyed on
the per-index objects `completeRequest` builds), partitioned into cacheable
and non-cacheable subsets, bucketed by lookup outcome, and the per-bucket
results are written back into an index-addressed array; `none` in the output
models a hole (a position the source never wrote). -/
def wrapBulkModel (ctx : WrapCtx) (reqs : List ConsumerRequest) :
    List (Option (Except ProducerErr Entry)) :=
  if reqs.isEmpty then []
  else
    let finalRequests := reqs.enum
    let parts := finalRequests.partition (fun p => ctx.isCacheable p.2)
    let cacheableRequests := parts.1
    let nonCacheableRequests := parts.2
    let uncacheableProducerResults :=
      nonCacheableRequests.map (fun p => ctx.produce p.2)
    let cacheResults := cacheableRequests.map (fun p => ctx.lookup p.2)
    let requestsWithCacheResults := cacheableRequests.zip cacheResults
    let requestsWithUsableResults :=
      requestsWithCacheResults.filterMap (fun q =>
        q.2.usable.map (fun u => (q.1, u)))
    let requestsWithUWRResults :=
      requestsWithCacheResults.filterMap (fun q =>
        q.2.usableWhileRevalidate.map (fun u => (q.1, u)))
    let requestsNeedingProducerNow :=
      requestsWithCacheResults.filter (fun q =>
        !(q.2.usable.isSome || q.2.usableWhileRevalidate.isSome))
    let producerResults :=
      requestsNeedingProducerNow.map (fun q => ctx.produce q.1.2)
    let requestsWithResults :
        List ((Nat × ConsumerRequest) × Except ProducerErr Entry) :=
      requestsWithUsableResults.map (fun q => (q.1, Except.ok q.2))
        ++ requestsWithUWRResults.map (fun q => (q.1, Except.ok q.2))
        ++ (requestsNeedingProducerNow.zip producerResults).map (fun q =>
            (q.1.1, bulkNeedsProducerOutcome q.1.2 q.1.1.2 ctx.normRes q.2))
        ++ (nonCacheableRequests.zip uncacheableProducerResults).map (fun q =>
            (q.1, q.2.map (ctx.normRes q.1.2)))
    let results :=
      requestsWithResults.foldl
        (fun (acc : Nat → Option (Except ProducerErr Entry)) q =>
          Function.update acc q.1.1 (some q.2))
        (fun _ => none)
    (List.range reqs.length).map results

/-- The outcome the bulk wrapper computes for one request, read off the
per-request decision procedure: non-cacheable requests go straight to the
producer; otherwise a `usableWhileRevalidate` entry wins (it is written to
the output array after the `usable` bucket), then a `usable` entry, and
otherwise the needs-producer outcome. -/
def requestOutcome (ctx : WrapCtx) (req : ConsumerRequest) :
    Except ProducerErr Entry :=
  if ctx.isCacheable req then
    let res := ctx.lookup req
    match res.usableWhileRevalidate with
    | some u => .ok u
    | none =>
      match res.usable with
      | some u => .ok u
      | none => bulkNeedsProducerOutcome res req ctx.normRes (ctx.produce req)
  else
    (ctx.produce req).map (ctx.normRes req)

/-- The monotone chain `0 <= withoutRevalidation <= whileRevalidate <=
ifError` on a normalized producer `maxStale`. -/
def producerMaxStaleWellFormed (m : NormalizedProducerMaxStale) : Bool :=
  decide (0 ≤ m.withoutRevalidation) &&
    decide (m.withoutRevalidation ≤ m.whileRevalidate) &&
    decide (m.whileRevalidate ≤ m.ifError)

/-- Whether an `Entry` is in the range of normalization: non-negative
`initialAge` and `freshUntilAge`, and a monotone `maxStale` chain. -/
def entryWellFormed (e : Entry) : Bool :=
  decide (0 ≤ e.initialAge) && decide (0 ≤ e.directives.freshUntilAge) &&
    e.directives.maxStale.all producerMaxStaleWellFormed

/-- Whether a consumer `maxStale` is already in normalized form:
non-negative `freshUntilAge` (when present) and the monotone chain. -/
def consumerMaxStaleWellFormed (m : ConsumerMaxStale) : Bool :=
  m.freshUntilAge.all (fun f => decide (0 ≤ f)) &&
    decide (0 ≤ m.withoutRevalidation) &&
    decide (m.withoutRevalidation ≤ m.whileRevalidate) &&
    decide (m.whileRevalidate ≤ m.ifError)

/-- The classification procedure exactly as the specification words it for
instants at which the consumer's `maxAge` is not exceeded: with
`F = min(consumer maxStale freshUntilAge when supplied else infinity,
producer freshUntilAge)`, an age within `F` is `Usable`; otherwise, when
neither party supplied `maxStale`, `Unusable`; otherwise the staleness
`s = age - F` is classified against the per-field minimums of the producer's
`maxStale` (defaulting to all-infinite) and the consumer's (defaulting to
`{0, producer whileRevalidate, producer ifError}` when the producer supplied
one and to `{0,0,0}` otherwise), all comparisons non-strict. -/
def classifyAsSpecified (e : Entry) (c : ConsumerDirectives) (at' : ℚ) :
    EntryClassification :=
  let effectiveF : ℚ :=
    match c.maxStale.bind (fun m => m.freshUntilAge) with
    | none => e.directives.freshUntilAge
    | some f => min f e.directives.freshUntilAge
  if age e at' ≤ effectiveF then
    .Usable
  else if c.maxStale.isNone && e.directives.maxStale.isNone then
    .Unusable
  else
    let producerBounds : MaxStaleBounds :=
      match e.directives.maxStale with
      | some m =>
          ⟨(m.withoutRevalidation : ℚ), (m.whileRevalidate : ℚ),
            (m.ifError : ℚ)⟩
      | none => ⟨⊤, ⊤, ⊤⟩
    let consumerBounds : MaxStaleBounds :=
      match c.maxStale with
      | some m =>
          ⟨(m.withoutRevalidation : ℚ), (m.whileRevalidate : ℚ),
            (m.ifError : ℚ)⟩
      | none =>
        match e.directives.maxStale with
        | none => ⟨(0 : ℚ), (0 : ℚ), (0 : ℚ)⟩
        | some m => ⟨(0 : ℚ), (m.whileRevalidate : ℚ), (m.ifError : ℚ)⟩
    let s := age e at' - effectiveF
    if (s : WithTop ℚ) ≤
        min consumerBounds.withoutRevalidation
          producerBounds.withoutRevalidation then
      .Usable
    else if (s : WithTop ℚ) ≤
        min consumerBounds.whileRevalidate producerBounds.whileRevalidate then
      .UsableWhileRevalidate
    else if (s : WithTop ℚ) ≤
        min consumerBounds.ifError producerBounds.ifError then
      .UsableIfError
    else
      .Unusable

/-- The entry with the greatest `birthDate`, ties broken towards the last
such entry in input order: the last element of the sublist of entries whose
`birthDate` is greatest. -/
def lastWithGreatestBirthDate (l : List Entry) : Option Entry :=
  (l.filter (fun e => l.all (fun e2 =>
    decide (birthDate e2 ≤ birthDate e)))).getLast?

/-- The entry-grouping step as the specification words it: with some
`Usable` entry present, exactly the best (greatest `birthDate`, last on
ties) `Usable` entry with an empty `validatable` list and nothing else set;
otherwise `validatable` is the sublist of entries with non-empty validators,
`usableWhileRevalidate` is the best such entry when one exists, and
otherwise `usableIfError` is the best such entry or `none`. -/
def processEntriesAsSpecified (entries : List Entry)
    (directives : ConsumerDirectives) (now : ℚ) : CacheLookupResult :=
  let usableEntries :=
    entries.filter (fun it =>
      decide (classify it directives now = .Usable))
  if usableEntries.isEmpty then
    let validatableEntries := entries.filter isValidatable
    let usableWhileRevalidateEntries :=
      entries.filter (fun it =>
        decide (classify it directives now = .UsableWhileRevalidate))
    if usableWhileRevalidateEntries.isEmpty then
      let usableIfErrorEntries :=
        entries.filter (fun it =>
          decide (classify it directives now = .UsableIfError))
      { usable := none
        usableWhileRevalidate := none
        usableIfError :=
          if usableIfErrorEntries.isEmpty then none
          else lastWithGreatestBirthDate usableIfErrorEntries
        validatable := validatableEntries }
    else
      { usable := none
        usableWhileRevalidate :=
          lastWithGreatestBirthDate usableWhileRevalidateEntries
        usableIfError := none
        validatable := validatableEntries }
  else
    { usable := lastWithGreatestBirthDate usableEntries
      usableWhileRevalidate := none
      usableIfError := none
      validatable := [] }

/-! Canonical forms of the four result buckets assembled by
`wrapBulkModel`, as filters of the indexed request list; these are what the
bucket pipelines rewrite to, and the index bookkeeping is proved through
them. -/

/-- The hit bucket: index-tagged cacheable requests whose lookup has a
`usable` entry, paired with that entry. -/
def bulkSegUsable (ctx : WrapCtx) (reqs : List ConsumerRequest) :
    List ((Nat × ConsumerRequest) × Except ProducerErr Entry) :=
  (reqs.enum.filter (fun p => ctx.isCacheable p.2)).filterMap (fun p =>
    (ctx.lookup p.2).usable.map (fun u => (p, Except.ok u)))

/-- The stale-while-revalidate bucket. -/
def bulkSegUWR (ctx : WrapCtx) (reqs : List ConsumerRequest) :
    List ((Nat × ConsumerRequest) × Except ProducerErr Entry) :=
  (reqs.enum.filter (fun p => ctx.isCacheable p.2)).filterMap (fun p =>
    (ctx.lookup p.2).usableWhileRevalidate.map (fun u => (p, Except.ok u)))

/-- The needs-producer bucket: cacheable requests with neither `usable` nor
`usableWhileRevalidate`, paired with the producer outcome (after the
stale-if-error fallback). -/
def bulkSegProducer (ctx : WrapCtx) (reqs : List ConsumerRequest) :
    List ((Nat × ConsumerRequest) × Except ProducerErr Entry) :=
  (reqs.enum.filter (fun p =>
    !((ctx.lookup p.2).usable.isSome ||
      (ctx.lookup p.2).usableWhileRevalidate.isSome) &&
      ctx.isCacheable p.2)).map (fun p =>
    (p, bulkNeedsProducerOutcome (ctx.lookup p.2) p.2 ctx.normRes
      (ctx.produce p.2)))

/-- The uncacheable bucket: requests sent straight to the producer. -/
def bulkSegUncacheable (ctx : WrapCtx) (reqs : List ConsumerRequest) :
    List ((Nat × ConsumerRequest) × Except ProducerErr Entry) :=
  (reqs.enum.filter (fun p => !(ctx.isCacheable p.2))).map (fun p =>
    (p, (ctx.produce p.2).map (ctx.normRes p.2)))

/-! Concrete fixtures used by witnesses and counterexamples. -/

/-- A well-formed entry, 60 seconds old at instant 0, with producer
`maxStale {5, 10, 20}` and `storeFor 30`. -/
def entryW : Entry := ⟨1, 5, [], 60, 0, ⟨100, some ⟨5, 10, 20⟩, some 30⟩, []⟩

/-- A well-formed fresh entry born at instant 0 with no `maxStale`. -/
def entryFreshW : Entry := ⟨2, 6, [], 0, 0, ⟨10, none, none⟩, []⟩

/-- A well-formed entry born at instant 0; used at a pre-birth instant. -/
def entryNegW : Entry := ⟨3, 7, [], 0, 0, ⟨5, none, none⟩, []⟩

/-- The empty consumer directives. -/
def consumerEmptyW : ConsumerDirectives := ⟨none, none⟩

/-- Consumer directives with a generous `maxAge` and a normalized
`maxStale`. -/
def consumerW : ConsumerDirectives := ⟨some 100, some ⟨some 50, 0, 5, 8⟩⟩

/-- A raw producer resource whose `maxStale` is already `{0,0,0}`. -/
def resourceW : ProducerResultResource :=
  ⟨1, 9, none, none, some 0, ⟨1, some ⟨0, 0, 0⟩, none⟩, none⟩

/-- A one-entry backing store keyed on id 1, for the `getMany` witness. -/
def storeGetW : Nat → Nat → List Entry :=
  fun i _ => if i = 1 then [entryFreshW] else []

/-- The pointwise `getMany` of `storeGetW`. -/
def storeGetManyW : List (Nat × Nat) → List (List Entry) :=
  fun l => l.map (fun p => storeGetW p.1 p.2)

/-- Two requests on distinct ids, for the `getMany` witness. -/
def requestsW : List ConsumerRequest :=
  [⟨1, 0, consumerEmptyW⟩, ⟨2, 0, consumerEmptyW⟩]

/-- An open cache that throws on use after close. -/
def stateOpenW : CacheState := ⟨false, .throwPolicy⟩

/-- A closed cache whose after-close policy is to throw. -/
def stateClosedW : CacheState := ⟨true, .throwPolicy⟩

/-! Helper lemmas. -/

/-- The chain produced by `normalizeProducerMaxStale`. -/
theorem normalizeProducerMaxStale_chain (m : ProducerMaxStale) :
    0 ≤ (normalizeProducerMaxStale m).withoutRevalidation ∧
      (normalizeProducerMaxStale m).withoutRevalidation ≤
        (normalizeProducerMaxStale m).whileRevalidate ∧
      (normalizeProducerMaxStale m).whileRevalidate ≤
        (normalizeProducerMaxStale m).ifError := by
  refine ⟨le_max_left _ _, le_max_left _ _, le_max_left _ _⟩

/-- The chain produced by `normalizeConsumerMaxStale`. -/
theorem normalizeConsumerMaxStale_chain (m : ConsumerMaxStale) :
    0 ≤ (normalizeConsumerMaxStale m).withoutRevalidation ∧
      (normalizeConsumerMaxStale m).withoutRevalidation ≤
        (normalizeConsumerMaxStale m).whileRevalidate ∧
      (normalizeConsumerMaxStale m).whileRevalidate ≤
        (normalizeConsumerMaxStale m).ifError := by
  refine ⟨le_max_left _ _, le_max_left _ _, le_max_left _ _⟩

/-- `normalizeConsumerMaxStale` fixes values already in normalized form
(up to the change of tagged type). -/
theorem normalizeConsumerMaxStale_of_wellFormed (m : ConsumerMaxStale)
    (h : consumerMaxStaleWellFormed m = true) :
    normalizeConsumerMaxStale m =
      ⟨m.freshUntilAge, m.withoutRevalidation, m.whileRevalidate, m.ifError⟩ := by
  simp only [consumerMaxStaleWellFormed, Bool.and_eq_true,
    decide_eq_true_eq] at h
  obtain ⟨⟨⟨hf, h0⟩, h1⟩, h2⟩ := h
  cases hm : m.freshUntilAge with
  | none =>
    simp [normalizeConsumerMaxStale, hm, max_eq_right h0, max_eq_right h1,
      max_eq_right h2]
  | some f =>
    rw [hm] at hf
    simp only [Option.all_some, decide_eq_true_eq] at hf
    simp [normalizeConsumerMaxStale, hm, max_eq_right h0, max_eq_right h1,
      max_eq_right h2, max_eq_right hf]

/-! Claim C2. -/

/-- Claim C2: when the consumer set `maxAge = M` and the entry's age at `now`
exceeds `M`, `classify` returns `Unusable` regardless of any `maxStale`
directive of either party: the `maxAge` ceiling is checked first and no later
rule can override it. -/
theorem classify_maxAge_hard_ceiling (e : Entry) (c : ConsumerDirectives)
    (at' : ℚ) (m : ℚ) (hm : c.maxAge = some m) (hage : age e at' > m) :
    classify e c at' = .Unusable := by
  simp [classify, hm, hage]

/-- Witness for claim C2 at a concrete entry 60 seconds old with
`maxAge = 50`. -/
theorem classify_maxAge_hard_ceiling_witness :
    classify entryW ⟨some 50, none⟩ 0 = .Unusable :=
  classify_maxAge_hard_ceiling entryW ⟨some 50, none⟩ 0 50 rfl
    (by norm_num [age, birthDate, entryW])

/-! Claim C7. -/

/-- `calculateStoreFor` written out as the one formula of the specification:
`max(0, min(requestedStoreFor, potentiallyUsefulFor))` with
`requestedStoreFor = storeFor - initialAge` when `storeFor` is present (else
infinite) and `potentiallyUsefulFor = freshUntilAge + maxStale.ifError - age`
when `maxStale` is present and the entry has no validators (else infinite). -/
theorem calculateStoreFor_eq_formula (entry : Entry) (now : ℚ) :
    calculateStoreFor entry now =
      max 0 (min
        (match entry.directives.storeFor with
          | some storeFor =>
              ((storeFor - entry.initialAge : ℚ) : WithTop ℚ)
          | none => (⊤ : WithTop ℚ))
        (match entry.directives.maxStale, entry.validators with
          | some ms, [] =>
              ((entry.directives.freshUntilAge + ms.ifError - age entry now :
                ℚ) : WithTop ℚ)
          | _, _ => (⊤ : WithTop ℚ))) := by
  unfold calculateStoreFor potentiallyUsefulFor
  cases hv : entry.validators with
  | nil =>
    cases hms : entry.directives.maxStale with
    | none => simp [isValidatable, hv, hms]
    | some ms => simp [isValidatable, hv, hms]
  | cons a t =>
    cases hms : entry.directives.maxStale with
    | none => simp [isValidatable, hv, hms]
    | some ms => simp [isValidatable, hv, hms]

/-- Claim C7: for every raw resource given to `Cache.store`, the
`maxStoreForSeconds` computed for (and emitted with) its normalized entry
`e` equals `max(0, min(r, p))` where `r` is `storeFor - initialAge` when
`storeFor` is present and infinite otherwise, and `p` is
`freshUntilAge + maxStale.ifError - age(e, now)` when `maxStale` is present
and `e` has no validators, and infinite otherwise. -/
theorem store_maxStoreForSeconds_formula
    (normVary : List (Nat × Option Nat) → List (Nat × Option Nat))
    (data : List ProducerResultResource) (now : ℚ) :
    cacheStoreEntriesWithTimes normVary data now =
      data.map (fun it =>
        let entry := normalizeProducerResultResource normVary it now
        (entry,
          max 0 (min
            (match entry.directives.storeFor with
              | some storeFor =>
                  ((storeFor - entry.initialAge : ℚ) : WithTop ℚ)
              | none => (⊤ : WithTop ℚ))
            (match entry.directives.maxStale, entry.validators with
              | some ms, [] =>
                  ((entry.directives.freshUntilAge + ms.ifError -
                    age entry now : ℚ) : WithTop ℚ)
              | _, _ => (⊤ : WithTop ℚ))))) := by
  unfold cacheStoreEntriesWithTimes
  refine List.map_congr_left (fun it _ => ?_)
  simp only [calculateStoreFor_eq_formula]

/-! Claim C8. -/

/-- Claim C8: both normalizers clamp arbitrary raw `maxStale` inputs into the
monotone chain `0 <= withoutRevalidation <= whileRevalidate <= ifError`;
hence every `maxStale` held by a normalized entry satisfies the chain. -/
theorem normalized_maxStale_monotone (mp : ProducerMaxStale)
    (mc : ConsumerMaxStale) :
    (0 ≤ (normalizeProducerMaxStale mp).withoutRevalidation ∧
      (normalizeProducerMaxStale mp).withoutRevalidation ≤
        (normalizeProducerMaxStale mp).whileRevalidate ∧
      (normalizeProducerMaxStale mp).whileRevalidate ≤
        (normalizeProducerMaxStale mp).ifError) ∧
    (0 ≤ (normalizeConsumerMaxStale mc).withoutRevalidation ∧
      (normalizeConsumerMaxStale mc).withoutRevalidation ≤
        (normalizeConsumerMaxStale mc).whileRevalidate ∧
      (normalizeConsumerMaxStale mc).whileRevalidate ≤
        (normalizeConsumerMaxStale mc).ifError) ∧
    (∀ (normVary : List (Nat × Option Nat) → List (Nat × Option Nat))
      (r : ProducerResultResource) (fallback : ℚ)
      (ms : NormalizedProducerMaxStale),
      (normalizeProducerResultResource normVary r fallback).directives.maxStale
          = some ms →
        0 ≤ ms.withoutRevalidation ∧
          ms.withoutRevalidation ≤ ms.whileRevalidate ∧
          ms.whileRevalidate ≤ ms.ifError) := by
  refine ⟨normalizeProducerMaxStale_chain mp,
    normalizeConsumerMaxStale_chain mc, ?_⟩
  intro normVary r fallback ms hms
  have hdir : (normalizeProducerResultResource normVary r
        fallback).directives.maxStale =
      r.directives.maxStale.map normalizeProducerMaxStale := rfl
  rw [hdir] at hms
  cases h0 : r.directives.maxStale with
  | none => rw [h0] at hms; simp at hms
  | some m0 =>
    rw [h0] at hms
    simp only [Option.map_some', Option.some_inj] at hms
    rw [← hms]
    exact normalizeProducerMaxStale_chain m0

/-- Witness for claim C8: the inner implication discharged at a concrete raw
resource whose `maxStale` normalizes to `{0,0,0}`. -/
theorem normalized_maxStale_monotone_witness :
    0 ≤ (⟨0, 0, 0⟩ : NormalizedProducerMaxStale).withoutRevalidation ∧
      (⟨0, 0, 0⟩ : NormalizedProducerMaxStale).withoutRevalidation ≤
        (⟨0, 0, 0⟩ : NormalizedProducerMaxStale).whileRevalidate ∧
      (⟨0, 0, 0⟩ : NormalizedProducerMaxStale).whileRevalidate ≤
        (⟨0, 0, 0⟩ : NormalizedProducerMaxStale).ifError :=
  (normalized_maxStale_monotone ⟨0, 0, 0⟩ ⟨none, 0, 0, 0⟩).2.2
    id resourceW 0 ⟨0, 0, 0⟩ (by decide)

/-! Claim C9. -/

/-- Counterexample to claim C9 as stated: at an instant 1 second before the
entry's birth the age is negative, neither party supplies `maxStale`, and yet
`classify` does not return `Unusable` (it returns `Usable`). -/
theorem classify_negative_age_counterexample :
    age entryNegW (-1000) < 0 ∧ entryNegW.directives.maxStale = none ∧
      consumerEmptyW.maxStale = none ∧ consumerEmptyW.maxAge = none ∧
      classify entryNegW consumerEmptyW (-1000) ≠ .Unusable := by
  refine ⟨by norm_num [age, birthDate, entryNegW], rfl, rfl, rfl, ?_⟩
  have h : classify entryNegW consumerEmptyW (-1000) = .Usable := by
    norm_num [classify, age, birthDate, entryNegW, consumerEmptyW]
  rw [h]
  simp

/-- Claim C9 as amended: at an instant preceding the entry's birth,
`isFresh` is indeed false, but `classify` does not treat the entry as
non-fresh: when neither party supplies a `maxStale` directive (and the
consumer's `maxAge`, if any, is not exceeded), `classify` returns `Usable`,
because a negative age never exceeds the effective freshness lifetime. -/
theorem negative_age_nonFresh_but_usable (e : Entry) (c : ConsumerDirectives)
    (at' : ℚ) (hw : entryWellFormed e = true) (hneg : age e at' < 0)
    (hcm : c.maxStale = none) (_hpm : e.directives.maxStale = none)
    (hma : ∀ m ∈ c.maxAge, age e at' ≤ m) :
    isFresh e at' = false ∧ classify e c at' = .Usable := by
  have h0 : ¬(0 ≤ age e at') := not_le.mpr hneg
  have hfua : 0 ≤ e.directives.freshUntilAge := by
    simp only [entryWellFormed, Bool.and_eq_true, decide_eq_true_eq] at hw
    exact hw.1.2
  have hagefua : age e at' ≤ e.directives.freshUntilAge :=
    le_trans hneg.le hfua
  refine ⟨by simp [isFresh, h0], ?_⟩
  cases hmage : c.maxAge with
  | none => simp [classify, hcm, hmage, hagefua]
  | some m =>
    have hm : age e at' ≤ m := hma m (by rw [hmage]; rfl)
    simp [classify, hcm, hmage, hagefua, not_lt.mpr hm]

/-- Witness for the amended claim C9 at a concrete entry used 1 second
before its birth. -/
theorem negative_age_nonFresh_but_usable_witness :
    isFresh entryNegW (-1000) = false ∧
      classify entryNegW consumerEmptyW (-1000) = .Usable :=
  negative_age_nonFresh_but_usable entryNegW consumerEmptyW (-1000)
    (by decide) (by norm_num [age, birthDate, entryNegW]) rfl rfl
    (by intro m hm; simp [consumerEmptyW] at hm)

/-! Claim C10. -/

/-- Claim C10: `getMany` on the empty request list returns the empty list for
every cache state and store (in particular without consulting the store and
even when the cache is closed with the throw policy), while in that closed
state `getMany` on any non-empty request list throws. -/
theorem getMany_empty_requests (st : CacheState)
    (storeGetMany : List (Nat × Nat) → List (List Entry))
    (normalizeParams : Nat → Nat) (now : ℚ) :
    cacheGetMany st storeGetMany normalizeParams [] now = .ok [] ∧
      (st.closed = true → st.onGetAfterClose = .throwPolicy →
        ∀ (r : ConsumerRequest) (rs : List ConsumerRequest),
          cacheGetMany st storeGetMany normalizeParams (r :: rs) now =
            .error .closedErr) := by
  constructor
  · rfl
  · intro h1 h2 r rs
    simp [cacheGetMany, h1, h2]

/-- Witness for claim C10 on a closed cache with the throw policy. -/
theorem getMany_empty_requests_witness :
    cacheGetMany stateClosedW storeGetManyW id [] 0 = .ok [] ∧
      cacheGetMany stateClosedW storeGetManyW id [⟨1, 0, consumerEmptyW⟩] 0 =
        .error .closedErr :=
  ⟨(getMany_empty_requests stateClosedW storeGetManyW id 0).1,
    (getMany_empty_requests stateClosedW storeGetManyW id 0).2 rfl rfl
      ⟨1, 0, consumerEmptyW⟩ []⟩

/-! Claim C1. -/

/-- Claim C1: for a normalized entry, consumer directives whose `maxStale`
(if supplied) is already in normalized form, and an instant at which the
consumer's `maxAge` is not exceeded, `classify` computes exactly the
classification the specification describes (`classifyAsSpecified`): fresh by
the effective lifetime `F` means `Usable`; with no `maxStale` on either side
the entry is otherwise `Unusable`; and otherwise the staleness `s = age - F`
is classified by the per-field minimums of the defaulted `maxStale`
directives with non-strict comparisons. -/
theorem classify_matches_specified_classification (e : Entry)
    (c : ConsumerDirectives) (at' : ℚ) (_hw : entryWellFormed e = true)
    (hcw : c.maxStale.all consumerMaxStaleWellFormed = true)
    (hma : ∀ m ∈ c.maxAge, age e at' ≤ m) :
    classify e c at' = classifyAsSpecified e c at' := by
  have hcond : (c.maxAge.elim false (fun m => decide (age e at' > m)))
      = false := by
    cases hm : c.maxAge with
    | none => rfl
    | some m =>
      simp only [Option.elim_some, decide_eq_false_iff_not]
      exact not_lt.mpr (hma m (by rw [hm]; rfl))
  cases hcm : c.maxStale with
  | none =>
    simp [classify, classifyAsSpecified, hcond, hcm]
  | some m =>
    have hmfix := normalizeConsumerMaxStale_of_wellFormed m
      (by rw [hcm] at hcw; simpa using hcw)
    simp [classify, classifyAsSpecified, hcond, hcm, hmfix]

/-- Witness for claim C1 at a concrete stale entry and a consumer carrying
`maxAge`, a `freshUntilAge` override, and a normalized `maxStale`. -/
theorem classify_matches_specified_classification_witness :
    classify entryW consumerW 0 = classifyAsSpecified entryW consumerW 0 :=
  classify_matches_specified_classification entryW consumerW 0
    (by decide) (by decide)
    (by
      intro m hm
      simp only [consumerW, Option.mem_def, Option.some_inj] at hm
      subst hm
      norm_num [age, birthDate, entryW])

/-! Claim C4. -/

/-- Claim C4: when the cache lookup yields neither `usable` nor
`usableWhileRevalidate`, a producer failure is recovered exactly when the
lookup yields a `usableIfError` entry (which is then returned); otherwise the
error surfaces.  On producer success the fresh result is returned instead.
This holds both for the single wrapper's decision flow and for the value the
bulk wrapper computes at that request's position. -/
theorem producer_failure_recovered_iff_usableIfError
    (cacheRes : CacheLookupResult) (req : ConsumerRequest)
    (normRes : ConsumerRequest → RawProducerResult → Entry)
    (h1 : cacheRes.usable = none)
    (h2 : cacheRes.usableWhileRevalidate = none) :
    (∀ err, wrappedProducerDecision cacheRes req normRes (.error err) =
      match cacheRes.usableIfError with
      | some u => .ok u
      | none => .error err) ∧
    (∀ r, wrappedProducerDecision cacheRes req normRes (.ok r) =
      .ok (normRes req r)) ∧
    (∀ ctx : WrapCtx, ctx.isCacheable req = true → ctx.lookup req = cacheRes →
      ctx.normRes = normRes →
      (∀ err, ctx.produce req = .error err →
        requestOutcome ctx req =
          match cacheRes.usableIfError with
          | some u => .ok u
          | none => .error err) ∧
      (∀ r, ctx.produce req = .ok r →
        requestOutcome ctx req = .ok (normRes req r))) := by
  refine ⟨?_, ?_, ?_⟩
  · intro err
    cases hie : cacheRes.usableIfError with
    | none => simp [wrappedProducerDecision, h1, h2, hie, Except.map]
    | some u => simp [wrappedProducerDecision, h1, h2, hie, Except.map]
  · intro r
    cases hie : cacheRes.usableIfError with
    | none => simp [wrappedProducerDecision, h1, h2, hie, Except.map]
    | some u => simp [wrappedProducerDecision, h1, h2, hie, Except.map]
  · intro ctx hcacheable hlookup hnorm
    constructor
    · intro err hp
      cases hie : cacheRes.usableIfError with
      | none =>
        simp [requestOutcome, bulkNeedsProducerOutcome, hcacheable, hlookup,
          h1, h2, hie, hp]
      | some u =>
        simp [requestOutcome, bulkNeedsProducerOutcome, hcacheable, hlookup,
          h1, h2, hie, hp]
    · intro r hp
      simp [requestOutcome, bulkNeedsProducerOutcome, hcacheable, hlookup,
        h1, h2, hp, hnorm]

/-- Witness for claim C4: a lookup with only a `usableIfError` entry
recovers a concrete producer error by returning that entry. -/
theorem producer_failure_recovered_iff_usableIfError_witness :
    wrappedProducerDecision ⟨none, none, some entryW, []⟩ ⟨1, 0, consumerEmptyW⟩
      (fun _ _ => entryFreshW) (.error 7) = .ok entryW :=
  (producer_failure_recovered_iff_usableIfError ⟨none, none, some entryW, []⟩
    ⟨1, 0, consumerEmptyW⟩ (fun _ _ => entryFreshW) rfl rfl).1 7

/-! Claim C6. -/

/-- Claim C6: assuming the store behaves as a pure function whose `getMany`
returns per pair exactly what its `get` returns, `getMany` on an open cache
returns, in input order, exactly the per-request results of `get` evaluated
at the same single instant, with the output length equal to the input
length. -/
theorem getMany_agrees_with_get (st : CacheState)
    (storeGet : Nat → Nat → List Entry)
    (storeGetMany : List (Nat × Nat) → List (List Entry))
    (normalizeParams : Nat → Nat) (requests : List ConsumerRequest) (now : ℚ)
    (hstore : ∀ l, storeGetMany l = l.map (fun p => storeGet p.1 p.2))
    (_hids : requests.Pairwise (fun a b => a.id ≠ b.id))
    (hopen : st.closed = false) :
    cacheGetMany st storeGetMany normalizeParams requests now =
      requests.mapM (fun r => cacheGet st storeGet normalizeParams r now) ∧
    ∀ out,
      cacheGetMany st storeGetMany normalizeParams requests now = .ok out →
      out.length = requests.length := by
  clear _hids
  have hget : ∀ r : ConsumerRequest,
      cacheGet st storeGet normalizeParams r now =
        .ok (processCacheEntries (storeGet r.id (normalizeParams r.params))
          r.directives now) := by
    intro r
    simp [cacheGet, hopen]
  have hmapM : requests.mapM
        (fun r => cacheGet st storeGet normalizeParams r now) =
      .ok (requests.map (fun r =>
        processCacheEntries (storeGet r.id (normalizeParams r.params))
          r.directives now)) := by
    induction requests with
    | nil => rfl
    | cons a t ih =>
      rw [List.mapM_cons, hget a, ih]
      rfl
  have hlhs : cacheGetMany st storeGetMany normalizeParams requests now =
      .ok (requests.map (fun r =>
        processCacheEntries (storeGet r.id (normalizeParams r.params))
          r.directives now)) := by
    by_cases hne : requests.isEmpty
    · rw [List.isEmpty_iff] at hne
      subst hne
      rfl
    · unfold cacheGetMany
      rw [if_neg (by simp [hne]), if_neg (by simp [hopen]), hstore,
        List.map_map]
      refine congrArg Except.ok (List.ext_getElem (by simp) ?_)
      intro i hi hj
      simp only [List.getElem_map, List.getElem_enum]
      rw [List.getD_eq_getElem?_getD, List.getElem?_map,
        List.getElem?_eq_getElem (by simpa using hj)]
      rfl
  refine ⟨hlhs.trans hmapM.symm, ?_⟩
  intro out hout
  rw [hlhs] at hout
  cases hout
  simp

/-- Witness for claim C6 on a two-request batch over a concrete store. -/
theorem getMany_agrees_with_get_witness :
    (cacheGetMany stateOpenW storeGetManyW id requestsW 0 =
      requestsW.mapM (fun r => cacheGet stateOpenW storeGetW id r 0)) ∧
    ∀ out, cacheGetMany stateOpenW storeGetManyW id requestsW 0 = .ok out →
      out.length = requestsW.length :=
  getMany_agrees_with_get stateOpenW storeGetW storeGetManyW id requestsW 0
    (fun _ => rfl)
    (by simp [requestsW, List.pairwise_cons])
    rfl

/-! Claim C3: helper lemmas characterizing `bestEntry`. -/

/-- Prepending to a non-empty list does not change its last element. -/
theorem getLast?_cons_of_ne_nil {α : Type} (b : α) {xs : List α}
    (h : xs ≠ []) : (b :: xs).getLast? = xs.getLast? := by
  cases xs with
  | nil => exact absurd rfl h
  | cons c t => rw [List.getLast?_cons_cons]

/-- In a `birthLE`-sorted non-empty list the head is bounded by the last
element. -/
theorem sorted_head_le_getLast {b m : Entry} {t : List Entry}
    (hs : List.Sorted birthLE (b :: t)) (hm : (b :: t).getLast? = some m) :
    birthDate b ≤ birthDate m := by
  induction t generalizing b with
  | nil =>
    have : b = m := by simpa using hm
    subst this
    exact le_refl _
  | cons c t2 ih =>
    rw [List.getLast?_cons_cons] at hm
    rw [List.sorted_cons] at hs
    exact le_trans (show birthDate b ≤ birthDate c from hs.1 c (by simp))
      (ih hs.2 hm)

/-- The last element of an ordered insert into a sorted list: the inserted
element exactly when it is strictly greater than the previous last. -/
theorem getLast?_orderedInsert (a : Entry) (s : List Entry)
    (hs : List.Sorted birthLE s) :
    (List.orderedInsert birthLE a s).getLast? =
      match s.getLast? with
      | none => some a
      | some m => if birthLE a m then some m else some a := by
  induction s with
  | nil => rfl
  | cons b t ih =>
    rw [List.orderedInsert]
    rw [List.sorted_cons] at hs
    by_cases hab : birthLE a b
    · rw [if_pos hab]
      cases hm : (b :: t).getLast? with
      | none => simp at hm
      | some m =>
        have hbm : birthDate b ≤ birthDate m :=
          sorted_head_le_getLast (List.sorted_cons.mpr hs) hm
        rw [getLast?_cons_of_ne_nil a (by simp), hm]
        show some m = if birthLE a m then some m else some a
        rw [if_pos (show birthLE a m from le_trans hab hbm)]
    · rw [if_neg hab]
      have hne : List.orderedInsert birthLE a t ≠ [] := by
        intro h
        have hlen := List.orderedInsert_length (r := birthLE) t a
        rw [h] at hlen
        simp at hlen
      rw [getLast?_cons_of_ne_nil b hne, ih hs.2]
      cases ht : t.getLast? with
      | none =>
        rw [List.getLast?_eq_none_iff] at ht
        subst ht
        show some a = if birthLE a b then some b else some a
        rw [if_neg hab]
      | some m =>
        have htne : t ≠ [] := by
          intro h
          rw [h] at ht
          simp at ht
        rw [getLast?_cons_of_ne_nil b htne, ht]

/-- The recurrence satisfied by `bestEntry`: the previous best survives
unless the new element's `birthDate` is at least as great. -/
theorem bestEntry_cons (a : Entry) (t : List Entry) :
    bestEntry (a :: t) =
      match bestEntry t with
      | none => some a
      | some m => if birthLE a m then some m else some a := by
  unfold bestEntry
  rw [List.insertionSort]
  exact getLast?_orderedInsert a _ (List.sorted_insertionSort birthLE t)

/-- Every non-empty list of entries has a `birthDate`-maximal element. -/
theorem exists_max_birth (a : Entry) (t : List Entry) :
    ∃ m, m ∈ a :: t ∧ ∀ x ∈ a :: t, birthDate x ≤ birthDate m := by
  induction t generalizing a with
  | nil => exact ⟨a, by simp, by simp⟩
  | cons b t2 ih =>
    obtain ⟨m2, hm2mem, hm2ub⟩ := ih b
    by_cases h : birthDate a ≤ birthDate m2
    · refine ⟨m2, List.mem_cons_of_mem a hm2mem, ?_⟩
      intro x hx
      rcases List.mem_cons.mp hx with rfl | hx2
      · exact h
      · exact hm2ub x hx2
    · refine ⟨a, by simp, ?_⟩
      intro x hx
      rcases List.mem_cons.mp hx with rfl | hx2
      · exact le_refl _
      · exact le_trans (hm2ub x hx2) (le_of_not_le h)

/-- `lastWithGreatestBirthDate` returns nothing exactly on the empty list. -/
theorem lastWithGreatestBirthDate_eq_none_iff (l : List Entry) :
    lastWithGreatestBirthDate l = none ↔ l = [] := by
  constructor
  · intro h
    cases l with
    | nil => rfl
    | cons a t =>
      obtain ⟨m, hmem, hub⟩ := exists_max_birth a t
      unfold lastWithGreatestBirthDate at h
      rw [List.getLast?_eq_none_iff, List.filter_eq_nil_iff] at h
      refine absurd ?_ (h m hmem)
      simp only [List.all_eq_true, decide_eq_true_eq]
      exact hub
  · intro h
    subst h
    rfl

/-- What `lastWithGreatestBirthDate` returns is a member bounding every
entry's `birthDate`. -/
theorem lastWithGreatestBirthDate_spec {l : List Entry} {m : Entry}
    (h : lastWithGreatestBirthDate l = some m) :
    m ∈ l ∧ ∀ x ∈ l, birthDate x ≤ birthDate m := by
  unfold lastWithGreatestBirthDate at h
  have hmem := List.mem_of_getLast?_eq_some h
  rw [List.mem_filter] at hmem
  refine ⟨hmem.1, ?_⟩
  have hall := hmem.2
  simp only [List.all_eq_true, decide_eq_true_eq] at hall
  exact hall

/-- `Cache.bestEntry` (stable sort by `birthDate`, then take the last
element) returns exactly the entry with the greatest `birthDate`, ties
broken towards the last such entry in input order. -/
theorem bestEntry_eq_lastWithGreatestBirthDate (l : List Entry) :
    bestEntry l = lastWithGreatestBirthDate l := by
  induction l with
  | nil => rfl
  | cons a t ih =>
    rw [bestEntry_cons, ih]
    cases ht : lastWithGreatestBirthDate t with
    | none =>
      rw [(lastWithGreatestBirthDate_eq_none_iff t).mp ht]
      simp [lastWithGreatestBirthDate]
    | some m =>
      obtain ⟨hmem, hub⟩ := lastWithGreatestBirthDate_spec ht
      unfold lastWithGreatestBirthDate at ht
      by_cases ham : birthLE a m
      · show (if birthLE a m then some m else some a) =
          lastWithGreatestBirthDate (a :: t)
        rw [if_pos ham]
        unfold lastWithGreatestBirthDate
        rw [List.filter_cons]
        have hcong : (t.filter (fun x => (a :: t).all
              (fun e2 => decide (birthDate e2 ≤ birthDate x)))) =
            (t.filter (fun x => t.all
              (fun e2 => decide (birthDate e2 ≤ birthDate x)))) := by
          apply List.filter_congr
          intro x hx
          rw [List.all_cons]
          cases hb : (t.all fun e2 => decide (birthDate e2 ≤ birthDate x)) with
          | false => rw [Bool.and_false]
          | true =>
            rw [Bool.and_true]
            have hmx : birthDate m ≤ birthDate x := by
              have hb' := hb
              simp only [List.all_eq_true, decide_eq_true_eq] at hb'
              exact hb' m hmem
            simp [le_trans ham hmx]
        rw [hcong]
        have htne : (t.filter (fun x => t.all
            (fun e2 => decide (birthDate e2 ≤ birthDate x)))) ≠ [] := by
          intro h
          rw [h] at ht
          simp at ht
        split
        · rw [getLast?_cons_of_ne_nil a htne]
          exact ht.symm
        · exact ht.symm
      · show (if birthLE a m then some m else some a) =
          lastWithGreatestBirthDate (a :: t)
        rw [if_neg ham]
        have hma : birthDate m < birthDate a := not_le.mp ham
        unfold lastWithGreatestBirthDate
        rw [List.filter_cons]
        have hta : ((a :: t).all
            (fun e2 => decide (birthDate e2 ≤ birthDate a))) = true := by
          simp only [List.all_eq_true, decide_eq_true_eq]
          intro x hx
          rcases List.mem_cons.mp hx with rfl | hx2
          · exact le_refl _
          · exact le_trans (hub x hx2) hma.le
        have htnil : (t.filter (fun x => (a :: t).all
            (fun e2 => decide (birthDate e2 ≤ birthDate x)))) = [] := by
          rw [List.filter_eq_nil_iff]
          intro x hx hall
          simp only [List.all_eq_true, decide_eq_true_eq] at hall
          exact absurd (hall a (by simp))
            (not_le.mpr (lt_of_le_of_lt (hub x hx) hma))
        rw [hta, htnil]
        rfl

/-- Claim C3: the entry-grouping step shared by `get` and `getMany` computes
exactly the layout the specification describes: with any `Usable` entry
present, only `{usable := best, validatable := []}`; otherwise
`validatable` is the sublist of entries with non-empty validators together
with the best `UsableWhileRevalidate` entry when one exists, and otherwise
the best `UsableIfError` entry or nothing — where "best" is the greatest
`birthDate`, ties towards the last in input order. -/
theorem processCacheEntries_eq_specified (entries : List Entry)
    (directives : ConsumerDirectives) (now : ℚ) :
    processCacheEntries entries directives now =
      processEntriesAsSpecified entries directives now := by
  unfold processCacheEntries processEntriesAsSpecified
  simp only [bestEntry_eq_lastWithGreatestBirthDate]

/-! Claim C5: index bookkeeping of the bulk wrapper. -/


/-- Zipping a list with a map of itself pairs each element with its image. -/
theorem zip_self_map {α β : Type} (l : List α) (f : α → β) :
    l.zip (l.map f) = l.map (fun a => (a, f a)) := by
  induction l with
  | nil => rfl
  | cons a t ih => simp [ih]

/-- The bucket pipelines of `wrapBulkModel` rewrite to the four canonical
segments over the indexed request list. -/
theorem wrapBulkModel_eq_segments (ctx : WrapCtx)
    (reqs : List ConsumerRequest) (h : reqs.isEmpty = false) :
    wrapBulkModel ctx reqs = (List.range reqs.length).map
      ((bulkSegUsable ctx reqs ++ bulkSegUWR ctx reqs ++
        bulkSegProducer ctx reqs ++ bulkSegUncacheable ctx reqs).foldl
        (fun acc q => Function.update acc q.1.1 (some q.2))
        (fun _ => none)) := by
  unfold wrapBulkModel bulkSegUsable bulkSegUWR bulkSegProducer
    bulkSegUncacheable
  rw [if_neg (by simp [h])]
  simp only [List.partition_eq_filter_filter, zip_self_map, List.zip_map',
    List.filterMap_map, List.map_filterMap, List.filter_map, List.map_map,
    Option.map_map, List.filter_filter, Function.comp, Function.comp_def]

/-- Applying the index-addressed write-back fold at `i` yields the value of
the last pair written to `i`, or the initial function's value when no pair
targets `i`. -/
theorem writeback_apply {γ β : Type} (key : γ → Nat) (val : γ → β)
    (pairs : List γ) (f0 : Nat → Option β) (i : Nat) :
    (pairs.foldl (fun acc q => Function.update acc (key q) (some (val q)))
        f0) i =
      ((pairs.filter (fun q => decide (key q = i))).getLast?).elim (f0 i)
        (fun q => some (val q)) := by
  induction pairs generalizing f0 with
  | nil => simp
  | cons a t ih =>
    rw [List.foldl_cons, ih, List.filter_cons]
    by_cases hk : key a = i
    · rw [if_pos (by simp [hk])]
      cases hft : (t.filter fun q => decide (key q = i)).getLast? with
      | some q =>
        rw [getLast?_cons_of_ne_nil a
          (by intro hnil; rw [hnil] at hft; simp at hft), hft]
        simp
      | none =>
        rw [List.getLast?_eq_none_iff] at hft
        rw [hft]
        subst hk
        simp [Function.update_same]
    · rw [if_neg (by simp [hk])]
      have hupd : (Function.update f0 (key a) (some (val a))) i = f0 i :=
        Function.update_noteq (fun hh => hk hh.symm) _ _
      rw [hupd]

/-- In a list of index-tagged values with distinct indices, searching by an
index held by a member finds exactly that member. -/
theorem find?_fst_eq_of_nodup {s : List (Nat × ConsumerRequest)} {i : Nat}
    {r : ConsumerRequest} (hnd : (s.map Prod.fst).Nodup)
    (hmem : (i, r) ∈ s) :
    s.find? (fun p => decide (p.1 = i)) = some (i, r) := by
  induction s with
  | nil => simp at hmem
  | cons a t ih =>
    rw [List.map_cons, List.nodup_cons] at hnd
    by_cases hai : a.1 = i
    · have ha : a = (i, r) := by
        rcases List.mem_cons.mp hmem with hh | hh
        · exact hh.symm
        · exact absurd (hai ▸ List.mem_map_of_mem Prod.fst hh) hnd.1
      rw [List.find?_cons_of_pos _ (by simp [hai]), ha]
    · have hm2 : (i, r) ∈ t := by
        rcases List.mem_cons.mp hmem with hh | hh
        · exact absurd (by rw [← hh]) hai
        · exact hh
      rw [List.find?_cons_of_neg _ (by simp [hai])]
      exact ih hnd.2 hm2

/-- Filtering the indexed request list preserves distinctness of indices. -/
theorem nodup_fst_filter_enum (reqs : List ConsumerRequest)
    (q : (Nat × ConsumerRequest) → Bool) :
    ((reqs.enum.filter q).map Prod.fst).Nodup := by
  have hsub : List.Sublist ((reqs.enum.filter q).map Prod.fst)
      (reqs.enum.map Prod.fst) := (List.filter_sublist _).map Prod.fst
  have hnd : (reqs.enum.map Prod.fst).Nodup := by
    rw [List.enum_map_fst]
    exact List.nodup_range reqs.length
  exact hnd.sublist hsub

/-- Filtering a `filterMap` over index-tagged inputs by one index keeps at
most the image of the unique input carrying that index. -/
theorem filterMap_filter_key {γ : Type} (keyOf : γ → Nat)
    (K : (Nat × ConsumerRequest) → Option γ)
    (compat : ∀ p g, K p = some g → keyOf g = p.1) (i : Nat) :
    ∀ (s : List (Nat × ConsumerRequest)), (s.map Prod.fst).Nodup →
      (s.filterMap K).filter (fun g => decide (keyOf g = i)) =
        ((s.find? (fun p => decide (p.1 = i))).bind K).toList := by
  intro s
  induction s with
  | nil => intro _; rfl
  | cons a t ih =>
    intro hnd
    rw [List.map_cons, List.nodup_cons] at hnd
    rw [List.filterMap_cons]
    by_cases hai : a.1 = i
    · rw [List.find?_cons_of_pos _ (by simp [hai])]
      have htnil : (t.filterMap K).filter
          (fun g => decide (keyOf g = i)) = [] := by
        rw [List.filter_eq_nil_iff]
        intro g hg
        obtain ⟨p, hp, hKp⟩ := List.mem_filterMap.mp hg
        simp only [decide_eq_true_eq]
        rw [compat p g hKp]
        intro hpi
        exact hnd.1 ((hai.trans hpi.symm) ▸ List.mem_map_of_mem Prod.fst hp)
      cases hKa : K a with
      | none => simp [htnil, hKa]
      | some g =>
        rw [List.filter_cons, if_pos (by simp [compat a g hKa, hai]), htnil]
        simp [hKa]
    · rw [List.find?_cons_of_neg _ (by simp [hai])]
      cases hKa : K a with
      | none => exact ih hnd.2
      | some g =>
        rw [List.filter_cons,
          if_neg (by simp only [decide_eq_true_eq, compat a g hKa]; exact hai)]
        exact ih hnd.2

theorem find?_filter_enum_at (reqs : List ConsumerRequest) (i : Nat)
    (hi : i < reqs.length) (q : (Nat × ConsumerRequest) → Bool) :
    (reqs.enum.filter q).find? (fun p => decide (p.1 = i)) =
      if q (i, reqs[i]) then some (i, reqs[i]) else none := by
  by_cases hq : q (i, reqs[i])
  · rw [if_pos hq]
    apply find?_fst_eq_of_nodup (nodup_fst_filter_enum reqs q)
    rw [List.mem_filter]
    refine ⟨?_, hq⟩
    rw [List.mk_mem_enum_iff_getElem?]
    exact List.getElem?_eq_getElem hi
  · rw [if_neg hq, List.find?_eq_none]
    intro p hp
    rw [List.mem_filter] at hp
    simp only [decide_eq_true_eq]
    intro hpi
    have hpe := hp.1
    rw [List.mem_enum_iff_getElem?, hpi, List.getElem?_eq_getElem hi,
      Option.some_inj] at hpe
    have hpeq : p = (i, reqs[i]) := by
      obtain ⟨p1, p2⟩ := p
      simp only at hpi hpe
      rw [hpi, hpe]
    rw [hpeq] at hp
    exact hq hp.2


/-- A canonical `filterMap` segment filtered at index `i` keeps exactly the
image of `(i, reqs[i])` when that request passes the segment's test. -/
theorem seg_filter_at {γ : Type} (reqs : List ConsumerRequest) (i : Nat)
    (hi : i < reqs.length) (q : (Nat × ConsumerRequest) → Bool)
    (keyOf : γ → Nat) (K : (Nat × ConsumerRequest) → Option γ)
    (compat : ∀ p g, K p = some g → keyOf g = p.1) :
    ((reqs.enum.filter q).filterMap K).filter
        (fun g => decide (keyOf g = i)) =
      if q (i, reqs[i]) then (K (i, reqs[i])).toList else [] := by
  rw [filterMap_filter_key keyOf K compat i _ (nodup_fst_filter_enum reqs q),
    find?_filter_enum_at reqs i hi q]
  by_cases hq : q (i, reqs[i]) = true
  · rw [if_pos hq, if_pos hq]
    simp
  · rw [if_neg hq, if_neg hq]
    rfl

/-- `seg_filter_at` for the `map`-shaped segments. -/
theorem seg_map_filter_at {γ : Type} (reqs : List ConsumerRequest) (i : Nat)
    (hi : i < reqs.length) (q : (Nat × ConsumerRequest) → Bool)
    (keyOf : γ → Nat) (h : (Nat × ConsumerRequest) → γ)
    (compat : ∀ p, keyOf (h p) = p.1) :
    ((reqs.enum.filter q).map h).filter (fun g => decide (keyOf g = i)) =
      if q (i, reqs[i]) then [h (i, reqs[i])] else [] := by
  rw [← List.filterMap_eq_map h,
    seg_filter_at reqs i hi q keyOf (some ∘ h)
      (fun p g hg => by
        simp only [Function.comp_apply, Option.some_inj] at hg
        rw [← hg]
        exact compat p)]
  by_cases hq : q (i, reqs[i]) = true
  · rw [if_pos hq, if_pos hq]
    simp
  · rw [if_neg hq, if_neg hq]

/-- `writeback_apply` at the pair type assembled by `wrapBulkModel`. -/
theorem writeback_apply_pairs
    (pairs : List ((Nat × ConsumerRequest) × Except ProducerErr Entry))
    (f0 : Nat → Option (Except ProducerErr Entry)) (i : Nat) :
    (pairs.foldl
      (fun (acc : Nat → Option (Except ProducerErr Entry)) q =>
        Function.update acc q.1.1 (some q.2)) f0) i =
      ((pairs.filter (fun q => decide (q.1.1 = i))).getLast?).elim (f0 i)
        (fun q => some q.2) :=
  writeback_apply (fun q => q.1.1) (fun q => q.2) pairs f0 i

/-- Claim C5: the array `wrapBulkModel` returns has the same length as the
input, and for every index `i` the element at `i` is exactly the outcome
computed for `input[i]` (a normalized entry or an error), irrespective of
the cacheable/uncacheable partition, the hit / stale-while-revalidate /
needs-producer bucketing, and duplicate requests: every position is written,
and written with its own request's outcome. -/
theorem wrapBulk_positional (ctx : WrapCtx) (reqs : List ConsumerRequest) :
    wrapBulkModel ctx reqs = reqs.map (fun r => some (requestOutcome ctx r)) := by
  by_cases hemp : reqs.isEmpty = true
  · rw [List.isEmpty_iff] at hemp
    subst hemp
    rfl
  · have hemp' : reqs.isEmpty = false := by
      cases h : reqs.isEmpty with
      | true => exact absurd h hemp
      | false => rfl
    rw [wrapBulkModel_eq_segments ctx reqs hemp']
    refine List.ext_getElem (by simp) ?_
    intro i hi hj
    have hilen : i < reqs.length := by simpa using hj
    rw [List.getElem_map, List.getElem_range, List.getElem_map]
    rw [writeback_apply_pairs]
    rw [List.filter_append, List.filter_append, List.filter_append]
    have hU := seg_filter_at reqs i hilen
      (fun p => ctx.isCacheable p.2)
      (fun g : (Nat × ConsumerRequest) × Except ProducerErr Entry => g.1.1)
      (fun p => (ctx.lookup p.2).usable.map (fun u => (p, Except.ok u)))
      (fun p g hg => by
        obtain ⟨u, _, rfl⟩ := Option.map_eq_some'.mp hg
        rfl)
    have hW := seg_filter_at reqs i hilen
      (fun p => ctx.isCacheable p.2)
      (fun g : (Nat × ConsumerRequest) × Except ProducerErr Entry => g.1.1)
      (fun p => (ctx.lookup p.2).usableWhileRevalidate.map
        (fun u => (p, Except.ok u)))
      (fun p g hg => by
        obtain ⟨u, _, rfl⟩ := Option.map_eq_some'.mp hg
        rfl)
    have hP := seg_map_filter_at reqs i hilen
      (fun p => !((ctx.lookup p.2).usable.isSome ||
        (ctx.lookup p.2).usableWhileRevalidate.isSome) && ctx.isCacheable p.2)
      (fun g : (Nat × ConsumerRequest) × Except ProducerErr Entry => g.1.1)
      (fun p => (p, bulkNeedsProducerOutcome (ctx.lookup p.2) p.2 ctx.normRes
        (ctx.produce p.2)))
      (fun p => rfl)
    have hN := seg_map_filter_at reqs i hilen
      (fun p => !(ctx.isCacheable p.2))
      (fun g : (Nat × ConsumerRequest) × Except ProducerErr Entry => g.1.1)
      (fun p => (p, (ctx.produce p.2).map (ctx.normRes p.2)))
      (fun p => rfl)
    rw [show (bulkSegUsable ctx reqs).filter (fun g => decide (g.1.1 = i)) =
        _ from hU,
      show (bulkSegUWR ctx reqs).filter (fun g => decide (g.1.1 = i)) =
        _ from hW,
      show (bulkSegProducer ctx reqs).filter (fun g => decide (g.1.1 = i)) =
        _ from hP,
      show (bulkSegUncacheable ctx reqs).filter (fun g => decide (g.1.1 = i)) =
        _ from hN]
    by_cases hc : ctx.isCacheable reqs[i] = true
    · cases hu : (ctx.lookup reqs[i]).usable with
      | some u =>
        cases hw : (ctx.lookup reqs[i]).usableWhileRevalidate with
        | some w => simp [requestOutcome, hc, hu, hw]
        | none => simp [requestOutcome, hc, hu, hw]
      | none =>
        cases hw : (ctx.lookup reqs[i]).usableWhileRevalidate with
        | some w => simp [requestOutcome, hc, hu, hw]
        | none => simp [requestOutcome, hc, hu, hw]
    · simp [requestOutcome, hc]

end CacheSpec
